import Mathlib

/-!
Verification of the trading-signal and backtest core of the repository
(`app.js`): simple moving average (`sma`), SMA-crossover signal generation
(`generateSmaSignals`), the cash/position portfolio simulator
(`simulatePortfolio`), equity-curve reconstruction (`computeEquityCurve`)
and the performance statistics (`pctReturns`, `cagr`, `sharpe`).

Embedding conventions:
* JavaScript numbers are embedded as exact rationals (`ℚ`); `Math.floor`
  is `Int.floor`, so share quantities are integers (`ℤ`).
* Timestamps / chart labels are an opaque type `δ` with decidable equality
  (the code only ever compares them with `===`).
* `null` / `undefined` slots of the SMA output are `Option ℚ`; JavaScript
  truthiness of such a slot (`fastS[i] && ...`) is `truthy` below: the slot
  is present and its value is nonzero.
* `Math.sqrt` and `Math.pow` are irrational-valued, so `sharpe` and `cagr`
  are parameterised by the function used (`sqrtFn`, `powFn`); every theorem
  below only depends on properties that the JavaScript functions have
  (for instance `Math.sqrt 0 = 0`).
* Loops indexed by `i` are embedded as structural recursion on the number
  of remaining iterations, so that everything evaluates by `decide`.
-/

namespace Backtest

/-- The two signal / trade directions (`'buy'` / `'sell'` strings in the code). -/
inductive SigKind : Type
  | buy
  | sell
deriving DecidableEq

@[simp] theorem SigKind.buy_ne_sell : SigKind.buy ≠ SigKind.sell := by
  intro h
  exact SigKind.noConfusion h

@[simp] theorem SigKind.sell_ne_buy : SigKind.sell ≠ SigKind.buy := by
  intro h
  exact SigKind.noConfusion h

/-- A crossover signal: `{type, idx, price, date}` objects pushed by
`generateSmaSignals`. -/
structure Signal (δ : Type) : Type where
  kind : SigKind
  idx : ℕ
  price : ℚ
  date : δ
deriving DecidableEq

/-- A trade record: `{type, date, price, qty, fee, cash, position}` objects
pushed by `simulatePortfolio`. `cash` and `position` are the balances
immediately after the trade. -/
structure Trade (δ : Type) : Type where
  kind : SigKind
  date : δ
  price : ℚ
  qty : ℤ
  fee : ℚ
  cash : ℚ
  position : ℤ
deriving DecidableEq

/-- The mutable state of the simulator loop in `simulatePortfolio`:
`cash`, `position`, `lastPrice` (initially `null`) and the `trades` log. -/
structure SimState (δ : Type) : Type where
  cash : ℚ
  position : ℤ
  lastPrice : Option ℚ
  trades : List (Trade δ)
deriving DecidableEq

/-- The object returned by `simulatePortfolio`. -/
structure SimResult (δ : Type) : Type where
  startingCash : ℚ
  finalCash : ℚ
  position : ℤ
  finalPrice : ℚ
  portfolioValue : ℚ
  trades : List (Trade δ)
deriving DecidableEq

/-- One point `{date, total}` of the equity curve. -/
structure EquityPoint (δ : Type) : Type where
  date : δ
  total : ℚ
deriving DecidableEq

/-! ## `sma` (app.js lines 95–105)

```
function sma(prices, window){
  const out = [];
  let sum = 0;
  for(let i=0;i<prices.length;i++){
    sum += prices[i];
    if(i >= window) sum -= prices[i-window];
    if(i >= window-1) out.push(sum / window);
    else out.push(null);
  }
  return out;
}
```
The loop is embedded with the number of remaining iterations as fuel
(`fuel = prices.length - i` at entry). -/

/-- Loop body of `sma`: at entry `i` is the current index and `sum` the
running sum of the previous `window` prices ending at `i-1`. -/
def smaAux (prices : List ℚ) (window : ℕ) : ℕ → ℕ → ℚ → List (Option ℚ)
  | 0, _, _ => []
  | fuel + 1, i, sum =>
    let sum1 := sum + prices.getD i 0
    let sum2 := if window ≤ i then sum1 - prices.getD (i - window) 0 else sum1
    (if window ≤ i + 1 then some (sum2 / (window : ℚ)) else none) ::
      smaAux prices window fuel (i + 1) sum2

/-- The function `sma(prices, window)`: simple moving average with `null` (here `none`)
while fewer than `window` prices are available. -/
def sma (prices : List ℚ) (window : ℕ) : List (Option ℚ) :=
  smaAux prices window prices.length 0 0

/-! ## `generateSmaSignals` (app.js lines 108–122)

```
function generateSmaSignals(labels, prices, fast=5, slow=20){
  const fastS = sma(prices, fast);
  const slowS = sma(prices, slow);
  const signals = [];
  for(let i=1;i<prices.length;i++){
    if(fastS[i-1] && slowS[i-1] && fastS[i] && slowS[i]){
      if(fastS[i-1] <= slowS[i-1] && fastS[i] > slowS[i]){
        signals.push({type:'buy', idx:i, price:prices[i], date:labels[i]});
      } else if(fastS[i-1] >= slowS[i-1] && fastS[i] < slowS[i]){
        signals.push({type:'sell', idx:i, price:prices[i], date:labels[i]});
      }
    }
  }
  return signals;
}
```
-/

/-- JavaScript truthiness of an SMA slot: `null` and `0` are falsy. -/
def truthy : Option ℚ → Bool
  | none => false
  | some q => q ≠ 0

/-- Numeric value of an SMA slot, for the comparisons that the code performs
once the slot passed the truthiness guard. -/
def aval (x : Option ℚ) : ℚ := x.getD 0

/-- Loop body of `generateSmaSignals`, iterating `i` with fuel
`prices.length - i`. -/
def genAux {δ : Type} [Inhabited δ] (labels : List δ) (prices : List ℚ)
    (fastS slowS : List (Option ℚ)) : ℕ → ℕ → List (Signal δ)
  | 0, _ => []
  | fuel + 1, i =>
    (if truthy (fastS.getD (i - 1) none) ∧ truthy (slowS.getD (i - 1) none) ∧
        truthy (fastS.getD i none) ∧ truthy (slowS.getD i none) then
      if aval (fastS.getD (i - 1) none) ≤ aval (slowS.getD (i - 1) none) ∧
          aval (slowS.getD i none) < aval (fastS.getD i none) then
        [⟨.buy, i, prices.getD i 0, labels.getD i default⟩]
      else if aval (slowS.getD (i - 1) none) ≤ aval (fastS.getD (i - 1) none) ∧
          aval (fastS.getD i none) < aval (slowS.getD i none) then
        [⟨.sell, i, prices.getD i 0, labels.getD i default⟩]
      else []
    else []) ++ genAux labels prices fastS slowS fuel (i + 1)

/-- The function `generateSmaSignals(labels, prices, fast, slow)`. -/
def generateSmaSignals {δ : Type} [Inhabited δ] (labels : List δ)
    (prices : List ℚ) (fast slow : ℕ) : List (Signal δ) :=
  genAux labels prices (sma prices fast) (sma prices slow) (prices.length - 1) 1

/-! ## `simulatePortfolio` (app.js lines 125–155)

```
function simulatePortfolio(signals, prices, labels, startingCash=100000,
                           slippagePct=0.001, feePct=0.0005){
  let cash = startingCash;
  let position = 0;
  let lastPrice = null;
  const trades = [];
  for(const s of signals){
    const price = s.price * (1 + (s.type === 'buy' ? slippagePct : -slippagePct));
    const fee = price * feePct;
    if(s.type === 'buy' && cash > price){
      const spend = Math.min(cash * 0.5, cash);
      const qty = Math.floor((spend - fee) / price);
      if(qty <= 0) continue;
      const cost = qty * price + fee;
      cash -= cost;
      position += qty;
      trades.push({type:'buy', date:s.date, price, qty, fee, cash, position});
    } else if(s.type === 'sell' && position > 0){
      const qty = position;
      const proceeds = qty * price - fee;
      cash += proceeds;
      position -= qty;
      trades.push({type:'sell', date:s.date, price, qty, fee, cash, position});
    }
    lastPrice = price;
  }
  const finalPrice = prices[prices.length-1] || lastPrice || 0;
  const portfolioValue = cash + position * finalPrice;
  return {startingCash, finalCash:cash, position, finalPrice, portfolioValue, trades};
}
```
Note that `continue` (a buy whose quantity came out non-positive) skips the
`lastPrice = price` update, while every other skipped signal still performs it.
The `x || y` fallbacks are JavaScript truthiness: `undefined` (missing) and `0`
both fall through, which `List.getD _ 0` followed by a zero test captures. -/

/-- The executed price: `const price = s.price * (1 + (s.type === 'buy' ? slippagePct : -slippagePct))`. -/
def execPrice {δ : Type} (slippagePct : ℚ) (s : Signal δ) : ℚ :=
  s.price * (1 + (if s.kind = .buy then slippagePct else -slippagePct))

/-- The trade fee: `const fee = price * feePct`. -/
def execFee {δ : Type} (slippagePct feePct : ℚ) (s : Signal δ) : ℚ :=
  execPrice slippagePct s * feePct

/-- The buy quantity: `const qty = Math.floor((Math.min(cash * 0.5, cash) - fee) / price)`. -/
def buyQty {δ : Type} (slippagePct feePct cash : ℚ) (s : Signal δ) : ℤ :=
  ⌊(min (cash * 0.5) cash - execFee slippagePct feePct s) /
    execPrice slippagePct s⌋

/-- Body of the `for(const s of signals)` loop of `simulatePortfolio`. -/
def simStep {δ : Type} (slippagePct feePct : ℚ) (st : SimState δ)
    (s : Signal δ) : SimState δ :=
  let price := execPrice slippagePct s
  let fee := execFee slippagePct feePct s
  if s.kind = .buy ∧ price < st.cash then
    let qty : ℤ := buyQty slippagePct feePct st.cash s
    if qty ≤ 0 then st
    else
      let cost := qty * price + fee
      { cash := st.cash - cost
        position := st.position + qty
        lastPrice := some price
        trades := st.trades ++
          [⟨.buy, s.date, price, qty, fee, st.cash - cost, st.position + qty⟩] }
  else if s.kind = .sell ∧ 0 < st.position then
    let qty := st.position
    let proceeds := qty * price - fee
    { cash := st.cash + proceeds
      position := st.position - qty
      lastPrice := some price
      trades := st.trades ++
        [⟨.sell, s.date, price, qty, fee, st.cash + proceeds, st.position - qty⟩] }
  else { st with lastPrice := some price }

/-- The simulator loop: fold `simStep` over the signal list starting from
`(cash = startingCash, position = 0, lastPrice = null, trades = [])`. -/
def portfolioRun {δ : Type} (slippagePct feePct startingCash : ℚ)
    (signals : List (Signal δ)) : SimState δ :=
  signals.foldl (simStep slippagePct feePct) ⟨startingCash, 0, none, []⟩

/-- The function `simulatePortfolio(signals, prices, labels, startingCash,
slippagePct, feePct)`.  `labels` is accepted and ignored exactly as in the code. -/
def simulatePortfolio {δ : Type} (signals : List (Signal δ)) (prices : List ℚ)
    (_labels : List δ) (startingCash slippagePct feePct : ℚ) : SimResult δ :=
  let st := portfolioRun slippagePct feePct startingCash signals
  let lastSeries := prices.getD (prices.length - 1) 0
  let finalPrice := if lastSeries ≠ 0 then lastSeries else st.lastPrice.getD 0
  ⟨startingCash, st.cash, st.position, finalPrice,
    st.cash + st.position * finalPrice, st.trades⟩

/-! ## `computeEquityCurve` (app.js lines 160–184)

```
function computeEquityCurve(trades, prices, labels, startingCash=100000){
  const equity = [];
  let cash = startingCash;
  let position = 0;
  let tradeIndex = 0;
  for(let i=0;i<labels.length;i++){
    const date = labels[i];
    while(tradeIndex < trades.length && trades[tradeIndex].date === date){
      const t = trades[tradeIndex];
      if(t.type === 'buy'){ cash = t.cash; position = t.position; }
      else if(t.type === 'sell'){ cash = t.cash; position = t.position; }
      tradeIndex++;
    }
    const price = prices[i] || prices[prices.length-1] || 0;
    const total = cash + position * price;
    equity.push({date, total});
  }
  return equity;
}
```
The trade cursor `tradeIndex` is embedded as the still-unconsumed suffix of
the trade list. -/

/-- The inner `while` loop: consume leading trades whose `date` equals the
current label, updating `(cash, position)`; return the new balances and the
remaining trade suffix. -/
def applyMatching {δ : Type} [DecidableEq δ] (date : δ) :
    List (Trade δ) → ℚ × ℤ → (ℚ × ℤ) × List (Trade δ)
  | [], st => (st, [])
  | t :: rest, st =>
    if t.date = date then applyMatching date rest (t.cash, t.position)
    else (st, t :: rest)

/-- Outer loop of `computeEquityCurve` over the labels, with `i` the index of
the current label and `rem` the unconsumed trade suffix. -/
def equityGo {δ : Type} [DecidableEq δ] (prices : List ℚ) :
    List δ → ℕ → ℚ × ℤ → List (Trade δ) → List (EquityPoint δ)
  | [], _, _, _ => []
  | date :: rest, i, st, rem =>
    let next := applyMatching date rem st
    let cur := prices.getD i 0
    let price := if cur ≠ 0 then cur else prices.getD (prices.length - 1) 0
    ⟨date, next.1.1 + next.1.2 * price⟩ ::
      equityGo prices rest (i + 1) next.1 next.2

/-- The function `computeEquityCurve(trades, prices, labels, startingCash)`. -/
def computeEquityCurve {δ : Type} [DecidableEq δ] (trades : List (Trade δ))
    (prices : List ℚ) (labels : List δ) (startingCash : ℚ) :
    List (EquityPoint δ) :=
  equityGo prices labels 0 (startingCash, 0) trades

/-! ## Performance statistics (app.js lines 186–213)

```
function pctReturns(equity){
  const returns = [];
  for(let i=1;i<equity.length;i++){
    returns.push((equity[i].total / equity[i-1].total) - 1);
  }
  return returns;
}
function cagr(equity){
  if(equity.length < 2) return 0;
  const start = equity[0].total;
  const end = equity[equity.length-1].total;
  const periods = equity.length;
  const years = Math.max( (periods/252), 1/252 );
  return Math.pow(end/start, 1/years) - 1;
}
function sharpe(returns, rf=0){
  if(returns.length === 0) return 0;
  const avg = returns.reduce((a,b)=>a+b,0)/returns.length;
  const std = Math.sqrt(returns.map(r=>Math.pow(r-avg,2)).reduce((a,b)=>a+b,0)
              / returns.length);
  if(std === 0) return 0;
  const annFactor = Math.sqrt(252);
  return (avg - rf) / std * annFactor;
}
```
`Math.pow` and `Math.sqrt` produce irrational values, so `cagr` and `sharpe`
take the function used as an explicit argument; theorems assume of it only
facts true of the JavaScript originals (such as `Math.sqrt 0 = 0`). -/

/-- The function `pctReturns(equity)`: the loop pairs each point with its predecessor. -/
def pctReturns {δ : Type} : List (EquityPoint δ) → List ℚ
  | a :: b :: rest => (b.total / a.total - 1) :: pctReturns (b :: rest)
  | _ => []

/-- The function `cagr(equity)`, with `Math.pow` supplied as `powFn`. -/
def cagr {δ : Type} (powFn : ℚ → ℚ → ℚ) : List (EquityPoint δ) → ℚ
  | [] => 0
  | e0 :: rest =>
    if (e0 :: rest).length < 2 then 0
    else
      let start := e0.total
      let last := (rest.getLastD e0).total
      let periods : ℚ := (e0 :: rest).length
      let years := max (periods / 252) (1 / 252)
      powFn (last / start) (1 / years) - 1

/-- Population variance `Σ (r - avg)² / n` appearing under the square root in
`sharpe`. -/
def popVariance (returns : List ℚ) : ℚ :=
  let avg := returns.sum / returns.length
  (returns.map (fun r => (r - avg) ^ 2)).sum / returns.length

/-- The function `sharpe(returns, rf)`, with `Math.sqrt` supplied as `sqrtFn`. -/
def sharpe (sqrtFn : ℚ → ℚ) (returns : List ℚ) (rf : ℚ) : ℚ :=
  if returns.length = 0 then 0
  else
    let avg := returns.sum / returns.length
    let std := sqrtFn (popVariance returns)
    if std = 0 then 0
    else (avg - rf) / std * sqrtFn 252

/-! ## Specification-side definitions

The following definitions are written from the wording of the specification
(and, where a claim had to be amended, from the amended wording); they are
deliberately structured differently from the source embedding above and the
refinement theorems below compare the two. -/

/-- Spec §4.2 (amended): the signal emitted at index `i`, if any.  ``For each
index i from 1 to N−1 where both averages are defined *and nonzero* at `i−1`
and `i`: emit Buy at `i` if `fast[i-1] ≤ slow[i-1]` and `fast[i] > slow[i]`;
emit Sell at `i` if `fast[i-1] ≥ slow[i-1]` and `fast[i] < slow[i]`.'' -/
def specSignalAt {δ : Type} [Inhabited δ] (labels : List δ) (prices : List ℚ)
    (fast slow : ℕ) (i : ℕ) : Option (Signal δ) :=
  let fa := fun j => (sma prices fast).getD j none
  let sl := fun j => (sma prices slow).getD j none
  if truthy (fa (i - 1)) ∧ truthy (sl (i - 1)) ∧ truthy (fa i) ∧ truthy (sl i) then
    if aval (fa (i - 1)) ≤ aval (sl (i - 1)) ∧ aval (sl i) < aval (fa i) then
      some ⟨.buy, i, prices.getD i 0, labels.getD i default⟩
    else if aval (sl (i - 1)) ≤ aval (fa (i - 1)) ∧ aval (fa i) < aval (sl i) then
      some ⟨.sell, i, prices.getD i 0, labels.getD i default⟩
    else none
  else none

/-- Spec §4.2 (amended): the full signal sequence, in index order, indices `1`
to `N−1`. -/
def specCrossSignals {δ : Type} [Inhabited δ] (labels : List δ)
    (prices : List ℚ) (fast slow : ℕ) : List (Signal δ) :=
  (List.range' 1 (prices.length - 1)).filterMap (specSignalAt labels prices fast slow)

/-- Spec §4.4 (amended): the mark price of point `i` — the point's own price,
falling back, when that is missing or zero, to the last price of the whole
series (or `0` when that too is missing or zero). -/
def specPriceAt (prices : List ℚ) (i : ℕ) : ℚ :=
  if prices.getD i 0 ≠ 0 then prices.getD i 0 else prices.getLastD 0

/-- Spec §4.4 (amended): balances after applying, at one timestamp, the
consecutive leading unapplied trades whose date equals that timestamp — the
balances recorded in the last such trade, if any. -/
def specApplyState {δ : Type} [DecidableEq δ] (date : δ) (rem : List (Trade δ))
    (st : ℚ × ℤ) : ℚ × ℤ :=
  match (rem.takeWhile (fun t => decide (t.date = date))).getLast? with
  | some t => (t.cash, t.position)
  | none => st

/-- Spec §4.4 (amended): one equity point per label, in order; at each label
the cursor advances past the leading run of matching trades and the point's
total is `cash + position * specPriceAt`. -/
def specEquityGo {δ : Type} [DecidableEq δ] (prices : List ℚ) :
    List δ → ℕ → ℚ × ℤ → List (Trade δ) → List (EquityPoint δ)
  | [], _, _, _ => []
  | date :: rest, i, st, rem =>
    let st1 := specApplyState date rem st
    let rem1 := rem.dropWhile (fun t => decide (t.date = date))
    ⟨date, st1.1 + st1.2 * specPriceAt prices i⟩ ::
      specEquityGo prices rest (i + 1) st1 rem1

/-- Spec §4.4 (amended): the equity curve. -/
def specEquityCurve {δ : Type} [DecidableEq δ] (trades : List (Trade δ))
    (prices : List ℚ) (labels : List δ) (startingCash : ℚ) :
    List (EquityPoint δ) :=
  specEquityGo prices labels 0 (startingCash, 0) trades

/-- Spec §4.3 (amended): the slippage-adjusted price of the last signal whose
processing ran to the end of its loop iteration.  Every signal counts —
executed or silently skipped — except a buy abandoned because its computed
quantity was not positive. -/
def specLastProcessedPrice {δ : Type} (slippagePct feePct : ℚ) :
    List (Signal δ) → ℚ × ℤ → Option ℚ → Option ℚ
  | [], _, last => last
  | s :: rest, (cash, pos), last =>
    let price := execPrice slippagePct s
    let fee := execFee slippagePct feePct s
    if s.kind = .buy then
      if price < cash then
        let qty : ℤ := buyQty slippagePct feePct cash s
        if qty ≤ 0 then specLastProcessedPrice slippagePct feePct rest (cash, pos) last
        else
          specLastProcessedPrice slippagePct feePct rest
            (cash - (qty * price + fee), pos + qty) (some price)
      else specLastProcessedPrice slippagePct feePct rest (cash, pos) (some price)
    else
      if 0 < pos then
        specLastProcessedPrice slippagePct feePct rest
          (cash + (pos * price - fee), 0) (some price)
      else specLastProcessedPrice slippagePct feePct rest (cash, pos) (some price)

/-! ## Helper lemmas about the simulator step -/

/-- Each loop iteration of `simulatePortfolio` leaves the trade log unchanged
or appends exactly one trade. -/
theorem simStep_trades_cases {δ : Type} (σ φ : ℚ) (st : SimState δ)
    (s : Signal δ) :
    (simStep σ φ st s).trades = st.trades ∨
      ∃ t, (simStep σ φ st s).trades = st.trades ++ [t] := by
  simp only [simStep]
  split_ifs <;> simp

theorem foldl_simStep_trades_length {δ : Type} (σ φ : ℚ) :
    ∀ (sigs : List (Signal δ)) (st : SimState δ),
      ((sigs.foldl (simStep σ φ) st).trades).length ≤
        st.trades.length + sigs.length := by
  intro sigs
  induction sigs with
  | nil => intro st; simp
  | cons s rest ih =>
    intro st
    have h1 := ih (simStep σ φ st s)
    have h2 := simStep_trades_cases σ φ st s
    simp only [List.foldl_cons, List.length_cons]
    rcases h2 with h2 | ⟨t, h2⟩
    · rw [h2] at h1
      omega
    · rw [h2] at h1
      simp only [List.length_append, List.length_singleton] at h1
      omega

/-- With a non-negative fee rate, a buy whose executed price is not positive
always computes a non-positive quantity (in exact arithmetic the division by a
zero price yields `0`), hence is skipped. -/
theorem buyQty_nonpos_of_price_nonpos {δ : Type} (σ φ cash : ℚ) (s : Signal δ)
    (hφ : 0 ≤ φ) (hp : execPrice σ s ≤ 0) (hcp : execPrice σ s < cash) :
    buyQty σ φ cash s ≤ 0 := by
  rcases eq_or_lt_of_le hp with hp0 | hpneg
  · simp [buyQty, hp0]
  · have hfee : execFee σ φ s ≤ 0 := mul_nonpos_of_nonpos_of_nonneg (le_of_lt hpneg) hφ
    rcases le_or_lt 0 cash with hc | hc
    · have hspend : 0 ≤ min (cash * 0.5) cash := le_min (by linarith) hc
      have : (min (cash * 0.5) cash - execFee σ φ s) / execPrice σ s ≤ 0 :=
        div_nonpos_of_nonneg_of_nonpos (by linarith) (le_of_lt hpneg)
      exact Int.floor_nonpos this
    · have hspend : min (cash * 0.5) cash = cash := min_eq_right (by linarith)
      have hlt : (cash - execFee σ φ s) / execPrice σ s < 1 :=
        (div_lt_one_of_neg hpneg).mpr (by linarith)
      have hfl : ⌊(cash - execFee σ φ s) / execPrice σ s⌋ < 1 :=
        Int.floor_lt.mpr (by exact_mod_cast hlt)
      rw [buyQty, hspend]
      omega

/-! ## Claim theorems about the simulator step -/

/-- C2: processing a Buy signal from a state with non-negative cash: the
executed price is `signal.price * (1 + σ)`, the fee is `executedPrice * φ`;
the signal is skipped — cash, position and trade log unchanged — exactly when
`cash ≤ executedPrice` or `⌊(cash * 0.5 - fee) / executedPrice⌋ ≤ 0`, and
otherwise that floor is the bought quantity, cash decreases by
`qty * executedPrice + fee`, the position grows by `qty` and exactly one Trade
is appended. -/
theorem buy_signal_step_spec {δ : Type} (σ φ : ℚ) (st : SimState δ)
    (s : Signal δ) (hk : s.kind = SigKind.buy) (hc : 0 ≤ st.cash) :
    execPrice σ s = s.price * (1 + σ) ∧
    execFee σ φ s = execPrice σ s * φ ∧
    ((st.cash ≤ execPrice σ s ∨
        ⌊(st.cash * 0.5 - execFee σ φ s) / execPrice σ s⌋ ≤ 0) →
      (simStep σ φ st s).cash = st.cash ∧
      (simStep σ φ st s).position = st.position ∧
      (simStep σ φ st s).trades = st.trades) ∧
    (execPrice σ s < st.cash →
      0 < ⌊(st.cash * 0.5 - execFee σ φ s) / execPrice σ s⌋ →
      (simStep σ φ st s).cash =
        st.cash - (⌊(st.cash * 0.5 - execFee σ φ s) / execPrice σ s⌋ *
          execPrice σ s + execFee σ φ s) ∧
      (simStep σ φ st s).position =
        st.position + ⌊(st.cash * 0.5 - execFee σ φ s) / execPrice σ s⌋ ∧
      (simStep σ φ st s).trades = st.trades ++
        [⟨SigKind.buy, s.date, execPrice σ s,
          ⌊(st.cash * 0.5 - execFee σ φ s) / execPrice σ s⌋, execFee σ φ s,
          st.cash - (⌊(st.cash * 0.5 - execFee σ φ s) / execPrice σ s⌋ *
            execPrice σ s + execFee σ φ s),
          st.position + ⌊(st.cash * 0.5 - execFee σ φ s) / execPrice σ s⌋⟩]) := by
  have hmin : min (st.cash * 0.5) st.cash = st.cash * 0.5 :=
    min_eq_left (by linarith)
  have hq : buyQty σ φ st.cash s =
      ⌊(st.cash * 0.5 - execFee σ φ s) / execPrice σ s⌋ := by
    rw [buyQty, hmin]
  refine ⟨by simp [execPrice, hk], rfl, ?_, ?_⟩
  · intro h
    rcases h with h | h
    · have h1 : ¬(s.kind = SigKind.buy ∧ execPrice σ s < st.cash) := by
        rintro ⟨-, hlt⟩
        linarith
      by_cases h3 : s.kind = SigKind.sell ∧ 0 < st.position
      · rw [hk] at h3
        exact absurd h3.1 (by simp)
      · simp [simStep, if_neg h1, if_neg h3]
    · by_cases h1 : s.kind = SigKind.buy ∧ execPrice σ s < st.cash
      · have h2 : buyQty σ φ st.cash s ≤ 0 := by rw [hq]; exact h
        simp [simStep, if_pos h1, if_pos h2]
      · by_cases h3 : s.kind = SigKind.sell ∧ 0 < st.position
        · rw [hk] at h3
          exact absurd h3.1 (by simp)
        · simp [simStep, if_neg h1, if_neg h3]
  · intro hlt hqty
    have h1 : s.kind = SigKind.buy ∧ execPrice σ s < st.cash := ⟨hk, hlt⟩
    have h2 : ¬(buyQty σ φ st.cash s ≤ 0) := by rw [hq]; omega
    simp only [simStep, if_pos h1, if_neg h2]
    rw [hq]
    exact ⟨rfl, rfl, rfl⟩

/-- Witness for `buy_signal_step_spec`: cash 100, buy at price 10 with zero
slippage and fee rates executes with quantity `⌊50/10⌋ = 5` and leaves cash 50. -/
theorem buy_signal_step_spec_witness :
    (simStep 0 0 ⟨100, 0, none, []⟩ (⟨SigKind.buy, 7, 10, 3⟩ : Signal ℕ)).cash = 50 := by
  have h := (buy_signal_step_spec (δ := ℕ) 0 0 ⟨100, 0, none, []⟩
    ⟨SigKind.buy, 7, 10, 3⟩ rfl (by norm_num)).2.2.2
  have hfl : ⌊((⟨100, 0, none, []⟩ : SimState ℕ).cash * 0.5 -
      execFee 0 0 (⟨SigKind.buy, 7, 10, 3⟩ : Signal ℕ)) /
      execPrice 0 (⟨SigKind.buy, 7, 10, 3⟩ : Signal ℕ)⌋ = 5 := by
    norm_num [execFee, execPrice]
  have h2 := (h (by norm_num [execPrice]) (by rw [hfl]; norm_num)).1
  rw [hfl] at h2
  norm_num [execPrice, execFee] at h2
  exact h2

/-- C8: every Buy trade actually recorded strictly decreases cash, and every
Sell trade actually recorded leaves the position at exactly 0.  The fee rate
is assumed non-negative, as §4.3 presents it (a fraction, default 0.05%). -/
theorem buy_decreases_cash_sell_zeroes_position {δ : Type} (σ φ : ℚ)
    (st : SimState δ) (s : Signal δ) (hφ : 0 ≤ φ) :
    ∀ t, (simStep σ φ st s).trades = st.trades ++ [t] →
      (t.kind = SigKind.buy → (simStep σ φ st s).cash < st.cash) ∧
      (t.kind = SigKind.sell → (simStep σ φ st s).position = 0) := by
  intro t ht
  by_cases h1 : s.kind = SigKind.buy ∧ execPrice σ s < st.cash
  · by_cases h2 : buyQty σ φ st.cash s ≤ 0
    · exfalso
      simp only [simStep, if_pos h1, if_pos h2] at ht
      simp at ht
    · have hq1 : 1 ≤ buyQty σ φ st.cash s := by omega
      have hppos : 0 < execPrice σ s := by
        by_contra hle
        push_neg at hle
        exact h2 (buyQty_nonpos_of_price_nonpos σ φ st.cash s hφ hle h1.2)
      simp only [simStep, if_pos h1, if_neg h2] at ht ⊢
      have hteq : (⟨SigKind.buy, s.date, execPrice σ s, buyQty σ φ st.cash s,
          execFee σ φ s,
          st.cash - (buyQty σ φ st.cash s * execPrice σ s + execFee σ φ s),
          st.position + buyQty σ φ st.cash s⟩ : Trade δ) = t := by
        have h := List.append_cancel_left ht
        simpa using h
      constructor
      · intro _
        have hfee : 0 ≤ execFee σ φ s := mul_nonneg hppos.le hφ
        have hqc : (1 : ℚ) ≤ (buyQty σ φ st.cash s : ℚ) := by exact_mod_cast hq1
        have hmul : (1 : ℚ) * execPrice σ s ≤
            (buyQty σ φ st.cash s : ℚ) * execPrice σ s :=
          mul_le_mul_of_nonneg_right hqc hppos.le
        linarith
      · intro hsell
        rw [← hteq] at hsell
        exact absurd hsell (by simp)
  · by_cases h3 : s.kind = SigKind.sell ∧ 0 < st.position
    · simp only [simStep, if_neg h1, if_pos h3] at ht ⊢
      have hteq : (⟨SigKind.sell, s.date, execPrice σ s, st.position,
          execFee σ φ s,
          st.cash + (st.position * execPrice σ s - execFee σ φ s),
          st.position - st.position⟩ : Trade δ) = t := by
        have h := List.append_cancel_left ht
        simpa using h
      refine ⟨fun hbuy => ?_, fun _ => ?_⟩
      · rw [← hteq] at hbuy
        exact absurd hbuy (by simp)
      · simp
    · exfalso
      simp only [simStep, if_neg h1, if_neg h3] at ht
      simp at ht

/-- Witness for `buy_decreases_cash_sell_zeroes_position`: a concrete executed
sell (position 3 at price 10) leaves position 0. -/
theorem buy_decreases_cash_sell_zeroes_position_witness :
    (simStep 0 0 ⟨100, 3, none, []⟩ (⟨SigKind.sell, 0, 10, 0⟩ : Signal ℕ)).position = 0 := by
  have h := buy_decreases_cash_sell_zeroes_position (δ := ℕ) 0 0 ⟨100, 3, none, []⟩
    ⟨SigKind.sell, 0, 10, 0⟩ le_rfl
  exact (h ⟨SigKind.sell, 0, 10, 3, 0, 130, 0⟩
    (by norm_num [simStep, execPrice, execFee])).2 rfl

/-- C9: the simulator records at most one trade per input signal, so the trade
log is never longer than the signal list. -/
theorem trades_le_signals {δ : Type} (signals : List (Signal δ))
    (prices : List ℚ) (labels : List δ) (C0 σ φ : ℚ) :
    (simulatePortfolio signals prices labels C0 σ φ).trades.length ≤
      signals.length := by
  have h := foldl_simStep_trades_length σ φ signals ⟨C0, 0, none, []⟩
  simpa [simulatePortfolio, portfolioRun] using h

/-! ## Degenerate statistics -/

/-- If every return equals `c`, the population variance is exactly `0`. -/
theorem popVariance_of_constant (returns : List ℚ) (c : ℚ)
    (h : ∀ r ∈ returns, r = c) : popVariance returns = 0 := by
  cases hr : returns with
  | nil => simp [popVariance]
  | cons r0 rest =>
    rw [← hr]
    have hlen : returns.length ≠ 0 := by rw [hr]; simp
    have hrep : returns = List.replicate returns.length c :=
      List.eq_replicate_iff.mpr ⟨rfl, h⟩
    have hsum : returns.sum = (returns.length : ℚ) * c := by
      rw [hrep]
      simp [List.sum_replicate, nsmul_eq_mul]
    have havg : returns.sum / (returns.length : ℚ) = c := by
      rw [hsum]
      field_simp
    rw [popVariance]
    rw [havg]
    have hmap : returns.map (fun r => (r - c) ^ 2) =
        List.replicate returns.length 0 := by
      rw [hrep]
      simp [List.map_replicate]
    rw [hmap]
    simp

/-- C7: degenerate inputs yield neutral defaults: an equity curve with fewer
than 2 points gives empty returns and CAGR 0; Sharpe is 0 for empty returns
and whenever the population variance (hence the standard deviation) is 0, in
particular for all-identical returns; and the full pipeline on a single-price
series yields a one-point equity curve at the starting cash, with CAGR 0 and
Sharpe 0.  The square-root model is only assumed to satisfy `sqrtFn 0 = 0`,
as `Math.sqrt` does. -/
theorem degenerate_stats_neutral :
    (∀ (δ : Type) (equity : List (EquityPoint δ)) (powFn : ℚ → ℚ → ℚ),
      equity.length < 2 → pctReturns equity = [] ∧ cagr powFn equity = 0) ∧
    (∀ (sqrtFn : ℚ → ℚ) (rf : ℚ), sharpe sqrtFn [] rf = 0) ∧
    (∀ (sqrtFn : ℚ → ℚ) (returns : List ℚ) (rf : ℚ), sqrtFn 0 = 0 →
      popVariance returns = 0 → sharpe sqrtFn returns rf = 0) ∧
    (∀ (sqrtFn : ℚ → ℚ) (returns : List ℚ) (rf c : ℚ), sqrtFn 0 = 0 →
      (∀ r ∈ returns, r = c) → sharpe sqrtFn returns rf = 0) ∧
    (∀ (δ : Type) [DecidableEq δ] [Inhabited δ] (label : δ)
      (p C0 σ φ rf : ℚ) (F S : ℕ) (powFn : ℚ → ℚ → ℚ) (sqrtFn : ℚ → ℚ),
      computeEquityCurve
        (simulatePortfolio (generateSmaSignals [label] [p] F S) [p] [label]
          C0 σ φ).trades [p] [label] C0 = [⟨label, C0⟩] ∧
      cagr powFn [(⟨label, C0⟩ : EquityPoint δ)] = 0 ∧
      sharpe sqrtFn (pctReturns [(⟨label, C0⟩ : EquityPoint δ)]) rf = 0) := by
  refine ⟨?_, ?_, ?_, ?_, ?_⟩
  · intro δ equity powFn hlen
    match equity with
    | [] => exact ⟨rfl, rfl⟩
    | [e] => exact ⟨rfl, by simp [cagr]⟩
    | e :: e2 :: rest => exact absurd hlen (by simp)
  · intro sqrtFn rf
    simp [sharpe]
  · intro sqrtFn returns rf hf hv
    rcases Nat.eq_zero_or_pos returns.length with h0 | hpos
    · simp [sharpe, h0]
    · have : returns.length ≠ 0 := Nat.pos_iff_ne_zero.mp hpos
      simp [sharpe, this, hv, hf]
  · intro sqrtFn returns rf c hf hconst
    have := popVariance_of_constant returns c hconst
    rcases Nat.eq_zero_or_pos returns.length with h0 | hpos
    · simp [sharpe, h0]
    · have hne : returns.length ≠ 0 := Nat.pos_iff_ne_zero.mp hpos
      simp [sharpe, hne, this, hf]
  · intro δ _ _ label p C0 σ φ rf F S powFn sqrtFn
    have hsig : generateSmaSignals [label] [p] F S = ([] : List (Signal δ)) := rfl
    have htr : (simulatePortfolio (generateSmaSignals [label] [p] F S)
        [p] [label] C0 σ φ).trades = [] := by
      rw [hsig]
      rfl
    refine ⟨?_, by simp [cagr], by simp [pctReturns, sharpe]⟩
    rw [htr]
    simp [computeEquityCurve, equityGo, applyMatching]

/-- Witness for `degenerate_stats_neutral`: concrete degenerate inputs — a
one-point equity curve, all-identical returns, and a single-price pipeline. -/
theorem degenerate_stats_neutral_witness :
    pctReturns ([⟨0, 100⟩] : List (EquityPoint ℕ)) = [] ∧
    cagr (fun a b => a * b) ([⟨0, 100⟩] : List (EquityPoint ℕ)) = 0 ∧
    sharpe (fun x => if x = 0 then 0 else 1) [2, 2, 2] 0 = 0 ∧
    computeEquityCurve
      (simulatePortfolio (generateSmaSignals [(5 : ℕ)] [7] 2 4) [7] [5]
        1000 (1/1000) (1/2000)).trades [7] [5] 1000 = [⟨5, 1000⟩] := by
  obtain ⟨h1, h2, h3, h4, h5⟩ := degenerate_stats_neutral
  have ha := h1 ℕ [⟨0, 100⟩] (fun a b => a * b) (by simp)
  have hd := h4 (fun x => if x = 0 then 0 else 1) [2, 2, 2] 0 2 (by simp)
    (by intro r hr; simp at hr; exact hr)
  have he := h5 ℕ 5 7 1000 (1/1000) (1/2000) 0 2 4 (fun a b => a * b)
    (fun x => if x = 0 then 0 else 1)
  exact ⟨ha.1, ha.2, hd, he.1⟩

/-! ## Closed form of the running-sum moving average -/

/-- Sum of the window of (at most) `w` prices ending just before index `i` —
the value of the running `sum` variable of `sma` on entry to iteration `i`. -/
def windowSum (prices : List ℚ) (w i : ℕ) : ℚ :=
  ∑ k in Finset.Ico (i - w) i, prices.getD k 0

theorem windowSum_zero (prices : List ℚ) (w : ℕ) : windowSum prices w 0 = 0 := by
  simp [windowSum]

theorem windowSum_succ (prices : List ℚ) (w : ℕ) (hw : 1 ≤ w) (i : ℕ) :
    windowSum prices w (i + 1) =
      if w ≤ i then
        windowSum prices w i + prices.getD i 0 - prices.getD (i - w) 0
      else windowSum prices w i + prices.getD i 0 := by
  have h1 : i + 1 - w ≤ i := by omega
  have htop : windowSum prices w (i + 1) =
      (∑ k in Finset.Ico (i + 1 - w) i, prices.getD k 0) + prices.getD i 0 := by
    rw [windowSum]
    exact Finset.sum_Ico_succ_top h1 _
  by_cases hcase : w ≤ i
  · have h2 : i - w < i := by omega
    have h3 : i - w + 1 = i + 1 - w := by omega
    have hbot : windowSum prices w i =
        prices.getD (i - w) 0 + ∑ k in Finset.Ico (i + 1 - w) i, prices.getD k 0 := by
      rw [windowSum, Finset.sum_eq_sum_Ico_succ_bot h2, h3]
    rw [if_pos hcase, htop, hbot]
    ring
  · have h4 : i + 1 - w = i - w := by omega
    rw [if_neg hcase, htop, windowSum, h4]

theorem smaAux_eq_map (prices : List ℚ) (w : ℕ) (hw : 1 ≤ w) :
    ∀ fuel i, smaAux prices w fuel i (windowSum prices w i) =
      (List.range' i fuel).map
        (fun k => if w ≤ k + 1 then some (windowSum prices w (k + 1) / w) else none) := by
  intro fuel
  induction fuel with
  | zero => intro i; rfl
  | succ n ih =>
    intro i
    rw [List.range'_succ, List.map_cons, ← ih (i + 1)]
    simp only [smaAux]
    rw [← windowSum_succ prices w hw i]

/-- C6: `sma` returns one slot per input price; slot `i` is the undefined
marker exactly when `i < W − 1` and otherwise the arithmetic mean of the `W`
prices ending at `i`; on an all-equal series every defined slot equals that
constant price. -/
theorem sma_length_and_mean (prices : List ℚ) (W : ℕ) (hW : 1 ≤ W) :
    (sma prices W).length = prices.length ∧
    (∀ i, i < prices.length →
      (sma prices W).getD i none =
        if i + 1 < W then none
        else some ((∑ k in Finset.Ico (i + 1 - W) (i + 1), prices.getD k 0) / (W : ℚ))) ∧
    (∀ c, (∀ p ∈ prices, p = c) →
      ∀ i, W ≤ i + 1 → i < prices.length →
        (sma prices W).getD i none = some c) := by
  have hrw : sma prices W =
      (List.range' 0 prices.length).map
        (fun k => if W ≤ k + 1 then some (windowSum prices W (k + 1) / W) else none) := by
    rw [sma, ← windowSum_zero prices W, smaAux_eq_map prices W hW]
  have hget : ∀ i, i < prices.length →
      (sma prices W).getD i none =
        if W ≤ i + 1 then some (windowSum prices W (i + 1) / W) else none := by
    intro i hi
    rw [hrw]
    have hlen : i < ((List.range' 0 prices.length).map
        (fun k => if W ≤ k + 1 then some (windowSum prices W (k + 1) / W) else none)).length := by
      simpa using hi
    rw [List.getD_eq_getElem _ _ hlen]
    simp [List.getElem_range'_1]
  refine ⟨by rw [hrw]; simp, ?_, ?_⟩
  · intro i hi
    rw [hget i hi, windowSum]
    by_cases h : W ≤ i + 1
    · rw [if_pos h, if_neg (by omega)]
    · rw [if_neg h, if_pos (by omega)]
  · intro c hc i hWi hi
    rw [hget i hi, if_pos hWi, windowSum]
    have hval : ∀ k ∈ Finset.Ico (i + 1 - W) (i + 1), prices.getD k 0 = c := by
      intro k hk
      have hk2 : k < prices.length := by
        have := (Finset.mem_Ico.mp hk).2
        omega
      rw [List.getD_eq_getElem _ _ hk2]
      exact hc _ (List.getElem_mem hk2)
    rw [Finset.sum_congr rfl hval, Finset.sum_const, Nat.card_Ico]
    have hcard : i + 1 - (i + 1 - W) = W := by omega
    rw [hcard, nsmul_eq_mul]
    have hW0 : (W : ℚ) ≠ 0 := by
      exact_mod_cast Nat.pos_iff_ne_zero.mp hW
    field_simp

/-- Witness for `sma_length_and_mean`: window 2 over three prices — the first
slot undefined, the rest the two-price means; and the all-equal case. -/
theorem sma_length_and_mean_witness :
    (sma [4, 6, 6] 2).length = 3 ∧
    (sma [4, 6, 6] 2).getD 1 none = some ((4 + 6) / 2) ∧
    (sma [6, 6, 6] 2).getD 2 none = some 6 := by
  obtain ⟨h1, h2, -⟩ := sma_length_and_mean [4, 6, 6] 2 (by norm_num)
  obtain ⟨-, -, h3⟩ := sma_length_and_mean [6, 6, 6] 2 (by norm_num)
  refine ⟨by rw [h1]; rfl, ?_, ?_⟩
  · rw [h2 1 (by norm_num)]
    norm_num [Finset.sum_range_succ]
  · exact h3 6 (by intro p hp; simp at hp; exact hp) 2 (by norm_num) (by norm_num)

/-! ## Signal generation: truthiness gate -/

/-- C1 (counterexample): prices `[0, 0, 1]`, fast window 1, slow window 2.
Both averages are defined at indices 1 and 2 (`fast = [0, 0, 1]`,
`slow = [null, 0, 1/2]`), `fast[1] = 0 ≤ slow[1] = 0` and
`fast[2] = 1 > slow[2] = 1/2`, so the claim demands a Buy signal at index 2 —
but the generator's truthiness guard (`fastS[1] && …`) treats the average `0`
as falsy and emits nothing. -/
theorem crossover_truthiness_counterexample :
    sma [0, 0, 1] 1 = [some 0, some 0, some 1] ∧
    sma [0, 0, 1] 2 = [none, some 0, some (1/2)] ∧
    ((0 : ℚ) ≤ 0 ∧ (1/2 : ℚ) < 1) ∧
    generateSmaSignals ([10, 11, 12] : List ℕ) [0, 0, 1] 1 2 = [] := by
  refine ⟨by norm_num [sma, smaAux], by norm_num [sma, smaAux], by norm_num, ?_⟩
  norm_num [generateSmaSignals, genAux, sma, smaAux, truthy, aval]

theorem genAux_eq_filterMap {δ : Type} [Inhabited δ] (labels : List δ)
    (prices : List ℚ) (F S : ℕ) :
    ∀ fuel i, genAux labels prices (sma prices F) (sma prices S) fuel i =
      (List.range' i fuel).filterMap (specSignalAt labels prices F S) := by
  intro fuel
  induction fuel with
  | zero => intro i; rfl
  | succ n ih =>
    intro i
    rw [List.range'_succ, List.filterMap_cons]
    simp only [genAux, specSignalAt]
    rw [ih (i + 1)]
    split_ifs <;> simp

/-- C1 (amended): the generated signal sequence is exactly the spec's
crossover sequence with the definedness condition strengthened to ``defined
and nonzero'' (the code's truthiness guard): for each index `i` from 1 to
`N−1`, in index order, a Buy when `fast[i-1] ≤ slow[i-1]` and
`fast[i] > slow[i]`, a Sell when `fast[i-1] ≥ slow[i-1]` and
`fast[i] < slow[i]`, with no other suppression condition. -/
theorem crossover_signals_eq_spec {δ : Type} [Inhabited δ] (labels : List δ)
    (prices : List ℚ) (F S : ℕ) :
    generateSmaSignals labels prices F S = specCrossSignals labels prices F S := by
  rw [generateSmaSignals, specCrossSignals, genAux_eq_filterMap]

/-! ## Portfolio invariants -/

/-- One simulator step preserves non-negative cash and position, provided the
signal price is non-negative and the slippage and fee rates are fractions in
`[0, 1]`. -/
theorem simStep_preserves_nonneg {δ : Type} (σ φ : ℚ) (st : SimState δ)
    (s : Signal δ) (hσ0 : 0 ≤ σ) (hσ1 : σ ≤ 1) (hφ0 : 0 ≤ φ) (hφ1 : φ ≤ 1)
    (hp : 0 ≤ s.price) (hc : 0 ≤ st.cash) (hpos : 0 ≤ st.position) :
    0 ≤ (simStep σ φ st s).cash ∧ 0 ≤ (simStep σ φ st s).position := by
  by_cases h1 : s.kind = SigKind.buy ∧ execPrice σ s < st.cash
  · by_cases h2 : buyQty σ φ st.cash s ≤ 0
    · simp only [simStep, if_pos h1, if_pos h2]
      exact ⟨hc, hpos⟩
    · have hq1 : 1 ≤ buyQty σ φ st.cash s := by omega
      have hpge : 0 ≤ execPrice σ s := by
        rw [execPrice, if_pos h1.1]
        exact mul_nonneg hp (by linarith)
      have hppos : 0 < execPrice σ s := by
        rcases eq_or_lt_of_le hpge with h0 | h
        · exact absurd (buyQty_nonpos_of_price_nonpos σ φ st.cash s hφ0
            (le_of_eq h0.symm) h1.2) h2
        · exact h
      have hmin : min (st.cash * 0.5) st.cash = st.cash * 0.5 :=
        min_eq_left (by linarith)
      have hfloor_le : (buyQty σ φ st.cash s : ℚ) ≤
          (st.cash * 0.5 - execFee σ φ s) / execPrice σ s := by
        rw [buyQty, hmin]
        exact Int.floor_le _
      have hcost : (buyQty σ φ st.cash s : ℚ) * execPrice σ s ≤
          st.cash * 0.5 - execFee σ φ s :=
        (le_div_iff₀ hppos).mp hfloor_le
      simp only [simStep, if_pos h1, if_neg h2]
      refine ⟨by linarith, ?_⟩
      have : (0 : ℤ) ≤ buyQty σ φ st.cash s := by omega
      omega
  · by_cases h3 : s.kind = SigKind.sell ∧ 0 < st.position
    · have hnb : ¬(s.kind = SigKind.buy) := by
        rw [h3.1]
        simp
      have hpge : 0 ≤ execPrice σ s := by
        rw [execPrice, if_neg hnb]
        exact mul_nonneg hp (by linarith)
      have hfee : execFee σ φ s ≤ execPrice σ s := by
        rw [execFee]
        nlinarith
      have hposq : (1 : ℚ) ≤ (st.position : ℚ) := by
        exact_mod_cast h3.2
      have hmul : execPrice σ s ≤ (st.position : ℚ) * execPrice σ s := by
        nlinarith
      simp only [simStep, if_neg h1, if_pos h3]
      exact ⟨by linarith, by simp⟩
    · simp only [simStep, if_neg h1, if_neg h3]
      exact ⟨hc, hpos⟩

/-- Position bookkeeping of one simulator step, independent of any numeric
hypotheses: no trade means no position change; an appended Buy trade strictly
increases the position; an appended Sell trade zeroes it. -/
theorem simStep_position_change {δ : Type} (σ φ : ℚ) (st : SimState δ)
    (s : Signal δ) :
    ((simStep σ φ st s).trades = st.trades →
      (simStep σ φ st s).position = st.position) ∧
    (∀ t, (simStep σ φ st s).trades = st.trades ++ [t] →
      (t.kind = SigKind.buy → st.position < (simStep σ φ st s).position) ∧
      (t.kind = SigKind.sell → (simStep σ φ st s).position = 0)) := by
  by_cases h1 : s.kind = SigKind.buy ∧ execPrice σ s < st.cash
  · by_cases h2 : buyQty σ φ st.cash s ≤ 0
    · simp only [simStep, if_pos h1, if_pos h2]
      refine ⟨fun _ => trivial, fun t ht => absurd ht (by simp)⟩
    · simp only [simStep, if_pos h1, if_neg h2]
      refine ⟨fun h => absurd h.symm (by simp), fun t ht => ?_⟩
      have hteq : (⟨SigKind.buy, s.date, execPrice σ s, buyQty σ φ st.cash s,
          execFee σ φ s,
          st.cash - (buyQty σ φ st.cash s * execPrice σ s + execFee σ φ s),
          st.position + buyQty σ φ st.cash s⟩ : Trade δ) = t := by
        have h := List.append_cancel_left ht
        simpa using h
      refine ⟨fun _ => ?_, fun hsell => ?_⟩
      · omega
      · rw [← hteq] at hsell
        exact absurd hsell (by simp)
  · by_cases h3 : s.kind = SigKind.sell ∧ 0 < st.position
    · simp only [simStep, if_neg h1, if_pos h3]
      refine ⟨fun h => absurd h.symm (by simp), fun t ht => ?_⟩
      have hteq : (⟨SigKind.sell, s.date, execPrice σ s, st.position,
          execFee σ φ s,
          st.cash + (st.position * execPrice σ s - execFee σ φ s),
          st.position - st.position⟩ : Trade δ) = t := by
        have h := List.append_cancel_left ht
        simpa using h
      refine ⟨fun hbuy => ?_, fun _ => by simp⟩
      rw [← hteq] at hbuy
      exact absurd hbuy (by simp)
    · simp only [simStep, if_neg h1, if_neg h3]
      refine ⟨fun _ => trivial, fun t ht => absurd ht (by simp)⟩

theorem foldl_simStep_nonneg {δ : Type} (σ φ : ℚ)
    (hσ0 : 0 ≤ σ) (hσ1 : σ ≤ 1) (hφ0 : 0 ≤ φ) (hφ1 : φ ≤ 1) :
    ∀ (sigs : List (Signal δ)) (st : SimState δ),
      (∀ s ∈ sigs, 0 ≤ s.price) → 0 ≤ st.cash → 0 ≤ st.position →
      0 ≤ (sigs.foldl (simStep σ φ) st).cash ∧
      0 ≤ (sigs.foldl (simStep σ φ) st).position := by
  intro sigs
  induction sigs with
  | nil => intro st _ hc hpos; exact ⟨hc, hpos⟩
  | cons s rest ih =>
    intro st hp hc hpos
    have hstep := simStep_preserves_nonneg σ φ st s hσ0 hσ1 hφ0 hφ1
      (hp s (by simp)) hc hpos
    exact ih (simStep σ φ st s) (fun u hu => hp u (by simp [hu])) hstep.1 hstep.2

/-- C5: starting from positive cash, with non-negative signal prices and
fractional slippage and fee rates, throughout the simulation cash stays
non-negative and the (integer) position stays non-negative; after each
processed signal, if no trade was recorded the position is unchanged, an
appended Buy trade strictly increases it, and an appended Sell trade sets it
to exactly 0 (full liquidation). -/
theorem portfolio_invariants {δ : Type} (signals : List (Signal δ))
    (C0 σ φ : ℚ) (hC0 : 0 < C0) (hp : ∀ s ∈ signals, 0 ≤ s.price)
    (hσ0 : 0 ≤ σ) (hσ1 : σ ≤ 1) (hφ0 : 0 ≤ φ) (hφ1 : φ ≤ 1) :
    ∀ n,
      (0 ≤ (portfolioRun σ φ C0 (signals.take n)).cash ∧
        0 ≤ (portfolioRun σ φ C0 (signals.take n)).position) ∧
      (∀ s, signals[n]? = some s →
        portfolioRun σ φ C0 (signals.take (n + 1)) =
          simStep σ φ (portfolioRun σ φ C0 (signals.take n)) s ∧
        ((simStep σ φ (portfolioRun σ φ C0 (signals.take n)) s).trades =
            (portfolioRun σ φ C0 (signals.take n)).trades →
          (simStep σ φ (portfolioRun σ φ C0 (signals.take n)) s).position =
            (portfolioRun σ φ C0 (signals.take n)).position) ∧
        (∀ t, (simStep σ φ (portfolioRun σ φ C0 (signals.take n)) s).trades =
            (portfolioRun σ φ C0 (signals.take n)).trades ++ [t] →
          (t.kind = SigKind.buy →
            (portfolioRun σ φ C0 (signals.take n)).position <
              (simStep σ φ (portfolioRun σ φ C0 (signals.take n)) s).position) ∧
          (t.kind = SigKind.sell →
            (simStep σ φ (portfolioRun σ φ C0 (signals.take n)) s).position = 0))) := by
  intro n
  constructor
  · exact foldl_simStep_nonneg σ φ hσ0 hσ1 hφ0 hφ1 (signals.take n) _
      (fun s hs => hp s (List.take_subset n signals hs)) (le_of_lt hC0) le_rfl
  · intro s hs
    refine ⟨?_, simStep_position_change σ φ _ s⟩
    rw [portfolioRun, portfolioRun, List.take_succ, hs]
    simp [List.foldl_append]

/-- Witness for `portfolio_invariants`: one buy signal at price 10 from cash
100 with zero slippage and fees. -/
theorem portfolio_invariants_witness :
    0 ≤ (portfolioRun 0 0 100 (([⟨SigKind.buy, 0, 10, 0⟩] : List (Signal ℕ)).take 1)).cash ∧
    0 ≤ (portfolioRun 0 0 100 (([⟨SigKind.buy, 0, 10, 0⟩] : List (Signal ℕ)).take 1)).position :=
  (portfolio_invariants [⟨SigKind.buy, 0, 10, 0⟩] 100 0 0 (by norm_num)
    (by intro s hs; simp at hs; rw [hs]; norm_num) (by norm_num) (by norm_num)
    (by norm_num) (by norm_num) 1).1

/-! ## Equity curve -/

theorem getD_length_sub_one (l : List ℚ) :
    l.getD (l.length - 1) 0 = l.getLastD 0 := by
  induction l with
  | nil => rfl
  | cons a t ih =>
    cases t with
    | nil => rfl
    | cons b t' =>
      have h1 : (a :: b :: t').length - 1 = t'.length + 1 := by simp
      rw [h1, List.getD_cons_succ, List.getLastD_cons]
      have h2 : (b :: t').length - 1 = t'.length := by simp
      rw [← h2, ih, List.getLastD_cons, List.getLastD_cons]

/-- The `while` loop of `computeEquityCurve` takes the balances of the last
trade in the leading run of date-matching trades and leaves exactly the
remainder after that run. -/
theorem applyMatching_eq_spec {δ : Type} [DecidableEq δ] (date : δ) :
    ∀ (rem : List (Trade δ)) (st : ℚ × ℤ),
      applyMatching date rem st =
        (specApplyState date rem st,
          rem.dropWhile (fun t => decide (t.date = date))) := by
  intro rem
  induction rem with
  | nil => intro st; rfl
  | cons t rest ih =>
    intro st
    by_cases h : t.date = date
    · rw [applyMatching, if_pos h, ih]
      have hdw : (t :: rest).dropWhile (fun u => decide (u.date = date)) =
          rest.dropWhile (fun u => decide (u.date = date)) := by
        rw [List.dropWhile_cons]
        simp [h]
      have htw : (t :: rest).takeWhile (fun u => decide (u.date = date)) =
          t :: rest.takeWhile (fun u => decide (u.date = date)) := by
        rw [List.takeWhile_cons]
        simp [h]
      rw [hdw]
      have hst : specApplyState date (t :: rest) st =
          specApplyState date rest (t.cash, t.position) := by
        rw [specApplyState, specApplyState, htw, List.getLast?_cons]
        cases hlast : (rest.takeWhile (fun u => decide (u.date = date))).getLast? with
        | none =>
          simp [hlast]
        | some u =>
          simp [hlast]
      rw [hst]
    · rw [applyMatching, if_neg h]
      have hdw : (t :: rest).dropWhile (fun u => decide (u.date = date)) =
          t :: rest := by
        rw [List.dropWhile_cons]
        simp [h]
      have htw : (t :: rest).takeWhile (fun u => decide (u.date = date)) = [] := by
        rw [List.takeWhile_cons]
        simp [h]
      rw [hdw, specApplyState, htw]
      rfl

theorem equityGo_eq_spec {δ : Type} [DecidableEq δ] (prices : List ℚ) :
    ∀ (labels : List δ) (i : ℕ) (st : ℚ × ℤ) (rem : List (Trade δ)),
      equityGo prices labels i st rem = specEquityGo prices labels i st rem := by
  intro labels
  induction labels with
  | nil => intro i st rem; rfl
  | cons d rest ih =>
    intro i st rem
    rw [equityGo, specEquityGo, applyMatching_eq_spec]
    have hpr : (if prices.getD i 0 ≠ 0 then prices.getD i 0
        else prices.getD (prices.length - 1) 0) = specPriceAt prices i := by
      rw [specPriceAt, getD_length_sub_one]
    rw [hpr, ih]

/-- C3 (counterexample): one buy trade at label 0 (balances cash 50,
position 1 afterwards), prices `[5, 0, 7]`.  At label 1 the price is `0`, so
the claim's fallback to the *last known* price (5) predicts equity
`50 + 1·5 = 55`; the code instead falls back to the *final* price of the whole
series (7) and produces `50 + 1·7 = 57`. -/
theorem equity_fallback_counterexample :
    computeEquityCurve [⟨SigKind.buy, 0, 5, 1, 0, 50, 1⟩] [5, 0, 7]
      ([0, 1, 2] : List ℕ) 100 = [⟨0, 55⟩, ⟨1, 57⟩, ⟨2, 57⟩] ∧
    (50 : ℚ) + 1 * 5 = 55 ∧ (57 : ℚ) ≠ 55 := by
  refine ⟨?_, by norm_num, by norm_num⟩
  norm_num [computeEquityCurve, equityGo, applyMatching]

/-- C3 (amended): the reconstructor emits exactly one point per label, in
order; at each label it advances a single cursor over the consecutive leading
unapplied trades whose date equals that label, adopting the balances of the
last one; the point's total is `cash + position * price`, where a missing or
zero price at the current index falls back to the last price of the whole
series (`0` if that too is missing or zero). -/
theorem equity_curve_eq_spec {δ : Type} [DecidableEq δ]
    (trades : List (Trade δ)) (prices : List ℚ) (labels : List δ)
    (startingCash : ℚ) :
    computeEquityCurve trades prices labels startingCash =
      specEquityCurve trades prices labels startingCash ∧
    (computeEquityCurve trades prices labels startingCash).length =
      labels.length := by
  constructor
  · rw [computeEquityCurve, specEquityCurve, equityGo_eq_spec]
  · rw [computeEquityCurve]
    have hlen : ∀ (ls : List δ) (i : ℕ) (st : ℚ × ℤ) (rem : List (Trade δ)),
        (equityGo prices ls i st rem).length = ls.length := by
      intro ls
      induction ls with
      | nil => intro i st rem; rfl
      | cons d rest ih =>
        intro i st rem
        rw [equityGo, List.length_cons, List.length_cons, ih]
    exact hlen labels 0 (startingCash, 0) trades

theorem applyMatching_stuck {δ : Type} [DecidableEq δ] (date : δ)
    (t : Trade δ) (post : List (Trade δ)) (h : t.date ≠ date) :
    ∀ (r : List (Trade δ)) (st : ℚ × ℤ),
      applyMatching date (r ++ t :: post) st =
        ((applyMatching date r st).1, (applyMatching date r st).2 ++ t :: post) := by
  intro r
  induction r with
  | nil =>
    intro st
    rw [List.nil_append, applyMatching, applyMatching, if_neg h]
    rfl
  | cons u rest ih =>
    intro st
    rw [List.cons_append, applyMatching, applyMatching]
    by_cases hu : u.date = date
    · rw [if_pos hu, if_pos hu, ih]
    · rw [if_neg hu, if_neg hu]
      rfl

theorem equityGo_drops_stuck_suffix {δ : Type} [DecidableEq δ]
    (prices : List ℚ) (t : Trade δ) (post : List (Trade δ)) :
    ∀ (labels : List δ) (i : ℕ) (st : ℚ × ℤ) (r : List (Trade δ)),
      t.date ∉ labels →
      equityGo prices labels i st (r ++ t :: post) =
        equityGo prices labels i st r := by
  intro labels
  induction labels with
  | nil => intro i st r _; rfl
  | cons d rest ih =>
    intro i st r hmem
    have hd : t.date ≠ d := by
      intro hcontra
      exact hmem (by rw [hcontra]; simp)
    have hrest : t.date ∉ rest := fun hr => hmem (by simp [hr])
    rw [equityGo, equityGo, applyMatching_stuck d t post hd, ih _ _ _ hrest]

/-- C10: the reconstructor consumes the trade log with a single sequential
cursor — at each label it applies exactly the consecutive leading unapplied
trades dated at that label (adopting the last one's balances) — so a trade
whose date matches no label blocks itself and every later trade from ever
being applied, even if the later trades' dates do occur among the labels. -/
theorem equity_cursor_sequential {δ : Type} [DecidableEq δ] :
    (∀ (date : δ) (rem : List (Trade δ)) (st : ℚ × ℤ),
      applyMatching date rem st =
        (specApplyState date rem st,
          rem.dropWhile (fun t => decide (t.date = date)))) ∧
    (∀ (pre post : List (Trade δ)) (t : Trade δ) (prices : List ℚ)
        (labels : List δ) (C0 : ℚ),
      t.date ∉ labels →
      computeEquityCurve (pre ++ t :: post) prices labels C0 =
        computeEquityCurve pre prices labels C0) := by
  constructor
  · exact fun date rem st => applyMatching_eq_spec date rem st
  · intro pre post t prices labels C0 hmem
    rw [computeEquityCurve, computeEquityCurve,
      equityGo_drops_stuck_suffix prices t post labels 0 (C0, 0) pre hmem]

/-- Witness for `equity_cursor_sequential`: a trade dated 5 never matches
labels `[0, 1]`, so the curve with it (and a following trade dated 1) equals
the curve without them. -/
theorem equity_cursor_sequential_witness :
    (5 : ℕ) ∉ ([0, 1] : List ℕ) ∧
    computeEquityCurve
      ([] ++ (⟨SigKind.buy, 5, 2, 1, 0, 50, 1⟩ : Trade ℕ) ::
        [⟨SigKind.sell, 1, 2, 1, 0, 52, 0⟩]) [3, 4] [0, 1] 100 =
      computeEquityCurve [] [3, 4] [0, 1] 100 := by
  refine ⟨by norm_num, ?_⟩
  exact (equity_cursor_sequential (δ := ℕ)).2 []
    [⟨SigKind.sell, 1, 2, 1, 0, 52, 0⟩] ⟨SigKind.buy, 5, 2, 1, 0, 50, 1⟩
    [3, 4] [0, 1] 100 (by norm_num)

/-! ## Final mark price -/

theorem foldl_simStep_lastPrice {δ : Type} (σ φ : ℚ) :
    ∀ (sigs : List (Signal δ)) (cash : ℚ) (pos : ℤ) (last : Option ℚ)
      (trades : List (Trade δ)),
      (sigs.foldl (simStep σ φ) ⟨cash, pos, last, trades⟩).lastPrice =
        specLastProcessedPrice σ φ sigs (cash, pos) last := by
  intro sigs
  induction sigs with
  | nil => intro cash pos last trades; rfl
  | cons s rest ih =>
    intro cash pos last trades
    rw [List.foldl_cons]
    by_cases hk : s.kind = SigKind.buy
    · by_cases hlt : execPrice σ s < cash
      · by_cases hq : buyQty σ φ cash s ≤ 0
        · have hstep : simStep σ φ ⟨cash, pos, last, trades⟩ s =
              ⟨cash, pos, last, trades⟩ := by
            simp only [simStep, if_pos (And.intro hk hlt), if_pos hq]
          rw [hstep, ih]
          rw [specLastProcessedPrice]
          rw [if_pos hk, if_pos hlt, if_pos hq]
        · have hstep : simStep σ φ ⟨cash, pos, last, trades⟩ s =
              ⟨cash - (buyQty σ φ cash s * execPrice σ s + execFee σ φ s),
                pos + buyQty σ φ cash s, some (execPrice σ s),
                trades ++ [⟨SigKind.buy, s.date, execPrice σ s,
                  buyQty σ φ cash s, execFee σ φ s,
                  cash - (buyQty σ φ cash s * execPrice σ s + execFee σ φ s),
                  pos + buyQty σ φ cash s⟩]⟩ := by
            simp only [simStep, if_pos (And.intro hk hlt), if_neg hq]
          rw [hstep, ih]
          rw [specLastProcessedPrice]
          rw [if_pos hk, if_pos hlt, if_neg hq]
      · have hnb1 : ¬(s.kind = SigKind.buy ∧ execPrice σ s < cash) := by
          rintro ⟨-, hcon⟩
          exact hlt hcon
        have hns : ¬(s.kind = SigKind.sell ∧ 0 < pos) := by
          rintro ⟨hsk, -⟩
          rw [hk] at hsk
          exact absurd hsk (by simp)
        have hstep : simStep σ φ ⟨cash, pos, last, trades⟩ s =
            ⟨cash, pos, some (execPrice σ s), trades⟩ := by
          simp only [simStep, if_neg hnb1, if_neg hns]
        rw [hstep, ih]
        rw [specLastProcessedPrice]
        rw [if_pos hk, if_neg hlt]
    · have hsell : s.kind = SigKind.sell := by
        cases hsk : s.kind
        · exact absurd hsk hk
        · rfl
      have hnb : ¬(s.kind = SigKind.buy ∧ execPrice σ s < cash) := by
        rintro ⟨hcon, -⟩
        exact hk hcon
      by_cases hpos : 0 < pos
      · have hstep : simStep σ φ ⟨cash, pos, last, trades⟩ s =
            ⟨cash + (pos * execPrice σ s - execFee σ φ s), pos - pos,
              some (execPrice σ s),
              trades ++ [⟨SigKind.sell, s.date, execPrice σ s, pos,
                execFee σ φ s, cash + (pos * execPrice σ s - execFee σ φ s),
                pos - pos⟩]⟩ := by
          simp only [simStep, if_neg hnb, if_pos (And.intro hsell hpos)]
        rw [hstep, ih]
        rw [specLastProcessedPrice]
        rw [if_neg hk, if_pos hpos, sub_self]
      · have hns : ¬(s.kind = SigKind.sell ∧ 0 < pos) := by
          rintro ⟨-, hcon⟩
          exact hpos hcon
        have hstep : simStep σ φ ⟨cash, pos, last, trades⟩ s =
            ⟨cash, pos, some (execPrice σ s), trades⟩ := by
          simp only [simStep, if_neg hnb, if_neg hns]
        rw [hstep, ih]
        rw [specLastProcessedPrice]
        rw [if_neg hk, if_neg hpos]

/-- C4 (counterexample): empty price series, starting cash 100, no slippage or
fees; a first buy at price 10 executes (the only recorded trade, executed
price 10), then a second buy at price 1000 is skipped for insufficient cash —
yet it still updates `lastPrice`, so the reported final mark price is 1000,
not the last executed trade price 10. -/
theorem final_mark_price_counterexample :
    (simulatePortfolio [⟨SigKind.buy, 0, 10, 0⟩, ⟨SigKind.buy, 1, 1000, 1⟩]
      [] ([] : List ℕ) 100 0 0).finalPrice = 1000 ∧
    (simulatePortfolio [⟨SigKind.buy, 0, 10, 0⟩, ⟨SigKind.buy, 1, 1000, 1⟩]
      [] ([] : List ℕ) 100 0 0).trades =
      [⟨SigKind.buy, 0, 10, 5, 0, 50, 5⟩] ∧
    (1000 : ℚ) ≠ 10 := by
  refine ⟨?_, ?_, by norm_num⟩ <;>
    norm_num [simulatePortfolio, portfolioRun, simStep, execPrice, execFee, buyQty]

/-- C4 (amended): the reported final mark price is the last price of the
series when that is present and nonzero; otherwise it is the slippage-adjusted
price of the last signal whose loop iteration ran to completion — executed or
silently skipped, excluding only buys abandoned for non-positive quantity —
or `0` when there is no such signal (or its price is `0`). -/
theorem final_mark_price_eq_spec {δ : Type} (signals : List (Signal δ))
    (prices : List ℚ) (labels : List δ) (C0 σ φ : ℚ) :
    (simulatePortfolio signals prices labels C0 σ φ).finalPrice =
      if prices.getLastD 0 ≠ 0 then prices.getLastD 0
      else (specLastProcessedPrice σ φ signals (C0, 0) none).getD 0 := by
  simp only [simulatePortfolio]
  rw [getD_length_sub_one, portfolioRun, foldl_simStep_lastPrice]

end Backtest
